import Mathlib

/-!
Verification of the guided-LDA implementation (lda.py): collapsed Gibbs
sampling with an embedding-driven coherence adjustment of the topic-word
distribution.  Counts and probabilities are modelled over Int and Rat;
matrices are functions out of Nat, token streams are lists.
-/

namespace GuidedLDA

/-! ## Matrix-to-token-stream expansion

Modelled from the spec: the helper that expands the document-term matrix
into the parallel token streams WS/DS lives in the package module
lda.utils (matrix_to_lists), which is not part of the provided source;
the spec fixes its behavior: one (word, doc) pair per unit count, in
row-major order over documents then words.  A token is a (word, doc) pair.
-/

/-- Expand one matrix row: entry counts starting at word index w for
document d, row-major within the row. -/
def expandRowFrom (d w : Nat) : List Nat → List (Nat × Nat)
  | [] => []
  | c :: rest => List.replicate c (w, d) ++ expandRowFrom d (w + 1) rest

/-- Expand the rows of the matrix starting at document index d. -/
def matrixRowsFrom (d : Nat) : List (List Nat) → List (Nat × Nat)
  | [] => []
  | row :: rest => expandRowFrom d 0 row ++ matrixRowsFrom (d + 1) rest

/-- Modelled from the spec: lda.utils.matrix_to_lists, the row-major
expansion of a document-term count matrix into the token stream. -/
def matrixToLists (X : List (List Nat)) : List (Nat × Nat) :=
  matrixRowsFrom 0 X

/-- Total token count N of a document-term matrix (X.sum in the code). -/
def totalTokens (X : List (List Nat)) : Nat :=
  (X.map List.sum).sum

/-! ## Count state (nzw_, ndz_, nz_, ZS) and pointwise updates -/

/-- The mutable sufficient statistics of the sampler: topic-word counts,
document-topic counts, per-topic totals and the topic assignment list. -/
structure GibbsState where
  nzw : Nat → Nat → Int
  ndz : Nat → Nat → Int
  nz : Nat → Int
  zs : List Nat

/-- Add v to a single entry of a two-index count matrix. -/
def upd2 (f : Nat → Nat → Int) (a b : Nat) (v : Int) : Nat → Nat → Int :=
  fun x y => if x = a ∧ y = b then f x y + v else f x y

/-- Add v to a single entry of a one-index count vector. -/
def upd1 (f : Nat → Int) (a : Nat) (v : Int) : Nat → Int :=
  fun x => if x = a then f x + v else f x

/-- Remove token (w, d) from topic z: the three decrements of the
sampling loop (and, negated, the three increments). -/
def bumpCounts (s : GibbsState) (z w d : Nat) (v : Int) : GibbsState :=
  { s with
    nzw := upd2 s.nzw z w v
    ndz := upd2 s.ndz d z v
    nz := upd1 s.nz z v }

/-- Row sum of the topic-word counts for topic z over a vocabulary of
size W. -/
def rowSumNzw (s : GibbsState) (W z : Nat) : Int :=
  ∑ w ∈ Finset.range W, s.nzw z w

/-- Column sum of the document-topic counts for topic z over D
documents. -/
def colSumNdz (s : GibbsState) (D z : Nat) : Int :=
  ∑ d ∈ Finset.range D, s.ndz d z

/-- Sum of all entries of the document-topic count matrix. -/
def totalNdz (s : GibbsState) (D K : Nat) : Int :=
  ∑ d ∈ Finset.range D, ∑ z ∈ Finset.range K, s.ndz d z

/-! ## Initialization (_initialize, lda.py lines 374-403) -/

/-- The zeroed count state produced by the np.zeros allocations, with the
assignment list allocated (np.empty_like) at token-stream length. -/
def initState0 (N : Nat) : GibbsState :=
  { nzw := fun _ _ => 0
    ndz := fun _ _ => 0
    nz := fun _ => 0
    zs := List.replicate N 0 }

/-- One iteration of the initialization loop: token i gets topic
i mod K (round robin) and the three counts are incremented. -/
def initToken (K : Nat) (tokens : List (Nat × Nat)) (s : GibbsState) (i : Nat) : GibbsState :=
  let w := (tokens.getD i (0, 0)).1
  let d := (tokens.getD i (0, 0)).2
  let z := i % K
  bumpCounts { s with zs := s.zs.set i z } z w d 1

/-- The initialization loop of _initialize applied to the token stream of
the matrix X. -/
def initState (K : Nat) (X : List (List Nat)) : GibbsState :=
  let tokens := matrixToLists X
  (List.range tokens.length).foldl (initToken K tokens) (initState0 tokens.length)

/-! ## Sampling pass

Modelled from the spec: the per-token Gibbs update is implemented by the
Cython extension lda._lda._sample_topics, which is not part of the
provided source; _sample_topics (lda.py lines 416-422) only marshals the
arrays.  The spec (section 4.2) fixes the per-token contract: remove the
token's counts, form the blended conditional weight for every candidate
topic, draw by inverse CDF from a uniform variate, reinsert the counts at
the drawn topic.  eta is the scalar broadcast over the vocabulary, so
sum(eta) = W * eta.
-/

/-- Blended unnormalized conditional weight of topic k for a token of
word w in document d, computed on the state with the token removed. -/
def topicWeight (W : Nat) (alpha eta lamda : ℚ) (twa : Nat → Nat → ℚ)
    (s : GibbsState) (w d k : Nat) : ℚ :=
  lamda * (((s.ndz d k : ℚ) + alpha) * ((s.nzw k w : ℚ) + eta) / ((s.nz k : ℚ) + W * eta))
    + (1 - lamda) * (((s.ndz d k : ℚ) + alpha) * twa k w)

/-- Cumulative weight over topics 0..k (inclusive). -/
def cumWeight (W : Nat) (alpha eta lamda : ℚ) (twa : Nat → Nat → ℚ)
    (s : GibbsState) (w d k : Nat) : ℚ :=
  ∑ j ∈ Finset.range (k + 1), topicWeight W alpha eta lamda twa s w d j

/-- Inverse-CDF draw: the smallest topic k < K whose cumulative weight
exceeds u = variate * total, defaulting to the last topic. -/
def chooseTopic (K W : Nat) (alpha eta lamda : ℚ) (twa : Nat → Nat → ℚ)
    (s : GibbsState) (w d : Nat) (variate : ℚ) : Nat :=
  let total := ∑ j ∈ Finset.range K, topicWeight W alpha eta lamda twa s w d j
  let u := variate * total
  ((List.range K).find? (fun k => decide (u < cumWeight W alpha eta lamda twa s w d k))).getD (K - 1)

/-- Modelled from the spec: one per-token update of the collapsed Gibbs
sweep (remove, reweight, draw, reinsert). -/
def sampleToken (K W : Nat) (alpha eta lamda : ℚ) (twa : Nat → Nat → ℚ)
    (rands : Nat → ℚ) (tokens : List (Nat × Nat)) (s : GibbsState) (i : Nat) : GibbsState :=
  let w := (tokens.getD i (0, 0)).1
  let d := (tokens.getD i (0, 0)).2
  let z := s.zs.getD i 0
  let s1 := bumpCounts s z w d (-1)
  let k := chooseTopic K W alpha eta lamda twa s1 w d (rands i)
  bumpCounts { s1 with zs := s1.zs.set i k } k w d 1

/-- Modelled from the spec: one full sampling pass over every token in
index order. -/
def samplePass (K W : Nat) (alpha eta lamda : ℚ) (twa : Nat → Nat → ℚ)
    (rands : Nat → ℚ) (tokens : List (Nat × Nat)) (s : GibbsState) : GibbsState :=
  (List.range tokens.length).foldl (sampleToken K W alpha eta lamda twa rands tokens) s

/-- Iterated sampling passes, as driven by _fit: each pass m may use its
own (reshuffled) variate buffer and its own current adjusted topic-word
matrix, both supplied as functions of the pass index. -/
def runPasses (K W : Nat) (alpha eta lamda : ℚ) (twaSeq : Nat → Nat → Nat → ℚ)
    (randsSeq : Nat → Nat → ℚ) (tokens : List (Nat × Nat)) :
    Nat → GibbsState → GibbsState
  | 0, s => s
  | m + 1, s =>
      runPasses K W alpha eta lamda twaSeq randsSeq tokens m
        (samplePass K W alpha eta lamda (twaSeq m) (randsSeq m) tokens s)

/-- The bookkeeping invariant of the count state: for every topic the
topic-word row sum, the topic total and the document-topic column sum
agree, the grand total of ndz is the token count N, and the assignment
list has length N with every assigned topic in range. -/
def CountInvariant (K W D N : Nat) (s : GibbsState) : Prop :=
  (∀ z < K, rowSumNzw s W z = s.nz z ∧ s.nz z = colSumNdz s D z) ∧
    totalNdz s D K = N ∧ s.zs.length = N ∧ ∀ i < N, s.zs.getD i 0 < K

/-! ## Constructor validation (LDA.__init__, lda.py lines 99-122) -/

/-- The configuration carried by a successfully constructed model. -/
structure LDAConfig where
  nTopics : Int
  nIter : Nat
  alpha : ℚ
  eta : ℚ
  lamda : ℚ
  refresh : Nat

/-- Errors surfaced by construction and initialization. -/
inductive LDAError where
  | invalidAlphaEta
  | negativeDimensions
  | zeroDivision
deriving DecidableEq

/-- LDA.__init__: stores the configuration, then raises ValueError when
alpha <= 0 or eta <= 0; no other validation is performed. -/
def ldaNew (nTopics : Int) (nIter : Nat) (alpha eta lamda : ℚ) (refresh : Nat) :
    Except LDAError LDAConfig :=
  if alpha ≤ 0 ∨ eta ≤ 0 then .error .invalidAlphaEta
  else .ok { nTopics := nTopics, nIter := nIter, alpha := alpha, eta := eta,
             lamda := lamda, refresh := refresh }

/-- True when an Except value is an error. -/
def isErr {ε α : Type} : Except ε α → Bool
  | .error _ => true
  | .ok _ => false

/-! ## Fallible initialization (_initialize with arbitrary n_topics)

np.zeros((n_topics, W)) raises for negative n_topics before the token
loop runs; inside the loop, i % n_topics raises ZeroDivisionError when
n_topics = 0 (so only when at least one token exists).  There is no
explicit n_topics validation anywhere in the source.
-/

/-- One iteration of the initialization loop, made fallible: the round
robin i % n_topics divides by zero when n_topics = 0. -/
def initTokenE (K : Int) (tokens : List (Nat × Nat)) (s : GibbsState) (i : Nat) :
    Except LDAError GibbsState :=
  if K = 0 then .error .zeroDivision
  else .ok (initToken K.toNat tokens s i)

/-- _initialize for an arbitrary integer n_topics: the array allocations
reject negative dimensions, then the token loop runs. -/
def initializeE (K : Int) (X : List (List Nat)) : Except LDAError GibbsState :=
  if K < 0 then .error .negativeDimensions
  else
    let tokens := matrixToLists X
    (List.range tokens.length).foldlM (initTokenE K tokens) (initState0 tokens.length)

/-! ## Coherence adjustment of one topic row (_fit, lda.py lines 326-352)

The embedding lookup and the cosine relevances computed from it are
external inputs (spec section 1); the 12 top-word ids (topic_most row),
the 12 relevances (min_rele) and the 5 selected positions (min_index,
produced by heapq.nsmallest plus list.index) are therefore parameters of
the row adjustment.
-/

/-- Overwrite one entry of a row. -/
def updQ (f : Nat → ℚ) (a : Nat) (v : ℚ) : Nat → ℚ :=
  fun x => if x = a then v else f x

/-- Body of the low-relevance loop (lines 337-344): scale or zero the
selected word's entry in place, then accumulate into p_allocate reading
the already-updated entry. -/
def adjustWordStep (topicMost : List Nat) (minRele : List ℚ) :
    (Nat → ℚ) × ℚ → Nat → (Nat → ℚ) × ℚ :=
  fun rp i =>
    let aid := topicMost.getD i 0
    let r := minRele.getD i 0
    if 0 < r then
      let row := updQ rp.1 aid (rp.1 aid * r)
      (row, rp.2 + row aid * (1 - r))
    else
      let row := updQ rp.1 aid 0
      (row, rp.2 + row aid)

/-- The low-relevance loop over the selected positions, starting from
p_allocate = 0. -/
def adjustSelected (topicMost : List Nat) (minRele : List ℚ) (row : Nat → ℚ)
    (minIndex : List Nat) : (Nat → ℚ) × ℚ :=
  minIndex.foldl (adjustWordStep topicMost minRele) (row, 0)

/-- p_allocate_sum (lines 345-348): total current probability of the
non-selected top words, read after the low-relevance loop. -/
def pAllocateSum (topicMost : List Nat) (minIndex : List Nat) (row : Nat → ℚ) : ℚ :=
  (((List.range 12).filter (fun i => decide (i ∉ minIndex))).map
    (fun i => row (topicMost.getD i 0))).sum

/-- Body of the redistribution loop (lines 349-352). -/
def redistributeStep (topicMost : List Nat) (minIndex : List Nat) (pAlloc sAlloc : ℚ)
    (row : Nat → ℚ) (i : Nat) : Nat → ℚ :=
  if i ∈ minIndex then row
  else
    let pid := topicMost.getD i 0
    updQ row pid (row pid * (1 + pAlloc * row pid / sAlloc))

/-- The complete adjustment of the selected topic's row: low-relevance
scaling, pool accumulation, then proportional redistribution over the
non-selected top words. -/
def adjustTopicRow (topicMost : List Nat) (minRele : List ℚ) (minIndex : List Nat)
    (row : Nat → ℚ) : Nat → ℚ :=
  let rp := adjustSelected topicMost minRele row minIndex
  let sAlloc := pAllocateSum topicMost minIndex rp.1
  (List.range 12).foldl (redistributeStep topicMost minIndex rp.2 sAlloc) rp.1

/-! ## Dirichlet-smoothed row normalization and the final blend -/

/-- components_ recomputation (lines 288-289 and 360-361):
(nzw + eta) row-normalized. -/
def normalizeRows (nzw : Nat → Nat → Int) (W : Nat) (eta : ℚ) : Nat → Nat → ℚ :=
  fun z w => ((nzw z w : ℚ) + eta) / (∑ w' ∈ Finset.range W, ((nzw z w' : ℚ) + eta))

/-- The public topic_word output of fit (lines 360-365): the fresh
normalized components blended with the final adjusted matrix. -/
def fitTopicWord (nzw : Nat → Nat → Int) (W : Nat) (eta lamda : ℚ)
    (twNew : Nat → Nat → ℚ) : Nat → Nat → ℚ :=
  fun z w => lamda * normalizeRows nzw W eta z w + (1 - lamda) * twNew z w

/-! ## Object identity of components_ and topic_word_new

A small heap model: numpy arrays live in a store addressed by ids, and
the attributes components_ and topic_word_new hold ids.  Lines 288-291
bind both attributes to the same freshly allocated array; the adjuster
then mutates through topic_word_new.
-/

/-- The array store: matrices addressed by allocation ids. -/
structure Store where
  mem : Nat → Nat → Nat → ℚ
  next : Nat

/-- Allocate a fresh array, returning the new store and the new id. -/
def storeAlloc (st : Store) (m : Nat → Nat → ℚ) : Store × Nat :=
  ({ mem := fun i => if i = st.next then m else st.mem i, next := st.next + 1 }, st.next)

/-- The attribute slice of the model relevant to the adjuster: which
array ids components_ and topic_word_new currently hold. -/
structure FitRefs where
  store : Store
  componentsId : Nat
  topicWordNewId : Nat

/-- Lines 288-291: recompute components_ into a fresh array and bind
topic_word_new to the same array object. -/
def refreshComponents (v : FitRefs) (nzw : Nat → Nat → Int) (W : Nat) (eta : ℚ) : FitRefs :=
  let p := storeAlloc v.store (normalizeRows nzw W eta)
  { store := p.1, componentsId := p.2, topicWordNewId := p.2 }

/-- Replace one row of a matrix. -/
def updRowM (M : Nat → Nat → ℚ) (z : Nat) (r : Nat → ℚ) : Nat → Nat → ℚ :=
  fun z' w => if z' = z then r w else M z' w

/-- Lines 336-352 as a store mutation: the adjuster writes the adjusted
row through the topic_word_new reference, in place. -/
def adjustEpoch (v : FitRefs) (adjust : Nat) (topicMost : List Nat) (minRele : List ℚ)
    (minIndex : List Nat) : FitRefs :=
  let M := v.store.mem v.topicWordNewId
  let M' := updRowM M adjust (adjustTopicRow topicMost minRele minIndex (M adjust))
  { v with store := { v.store with mem := fun i => if i = v.topicWordNewId then M' else v.store.mem i } }

/-- Lines 360-365 in the heap model: components_ is rebound to a fresh
array computed from the counts, and the returned public topic_word is the
blend of that fresh array with the array still referenced by
topic_word_new. -/
def finalAssembly (v : FitRefs) (nzw : Nat → Nat → Int) (W : Nat) (eta lamda : ℚ) :
    FitRefs × (Nat → Nat → ℚ) :=
  let p := storeAlloc v.store (normalizeRows nzw W eta)
  let v' : FitRefs := { store := p.1, componentsId := p.2, topicWordNewId := v.topicWordNewId }
  (v', fun z w => lamda * v'.store.mem v'.componentsId z w
      + (1 - lamda) * v'.store.mem v'.topicWordNewId z w)

/-! ## Inferencer (_transform_single, lda.py lines 202-238, and
transform, lines 163-200) -/

/-- Column sum of the position-by-topic weight matrix PZS. -/
def pzsColSum (P : Nat → Nat → ℚ) (n k : Nat) : ℚ :=
  ∑ j ∈ Finset.range n, P j k

/-- The unnormalized update as the code computes it:
components[:, doc].T * (PZS.sum(axis=0) - PZS + alpha). -/
def pzsRawCode (phi : Nat → Nat → ℚ) (doc : List Nat) (alpha : ℚ)
    (P : Nat → Nat → ℚ) (i k : Nat) : ℚ :=
  phi k (doc.getD i 0) * (pzsColSum P doc.length k - P i k + alpha)

/-- The unnormalized update as the spec words it: topic_word[k][word_i]
times (the sum of PZS over the other token positions in topic k, plus
alpha). -/
def pzsRawSpec (phi : Nat → Nat → ℚ) (doc : List Nat) (alpha : ℚ)
    (P : Nat → Nat → ℚ) (i k : Nat) : ℚ :=
  phi k (doc.getD i 0) * ((∑ j ∈ (Finset.range doc.length).erase i, P j k) + alpha)

/-- Row-normalize each position's distribution over the K topics; the
matrix has doc-length rows and K columns. -/
def pzsNormalize (raw : Nat → Nat → ℚ) (n K : Nat) : Nat → Nat → ℚ :=
  fun i k => if i < n ∧ k < K then raw i k / (∑ k' ∈ Finset.range K, raw i k') else 0

/-- One iteration of the fixed-point update, code form. -/
def pzsStepCode (phi : Nat → Nat → ℚ) (doc : List Nat) (K : Nat) (alpha : ℚ)
    (P : Nat → Nat → ℚ) : Nat → Nat → ℚ :=
  pzsNormalize (pzsRawCode phi doc alpha P) doc.length K

/-- One iteration of the fixed-point update, spec form. -/
def pzsStepSpec (phi : Nat → Nat → ℚ) (doc : List Nat) (K : Nat) (alpha : ℚ)
    (P : Nat → Nat → ℚ) : Nat → Nat → ℚ :=
  pzsNormalize (pzsRawSpec phi doc alpha P) doc.length K

/-- Total absolute change between consecutive PZS matrices. -/
def pzsDelta (n K : Nat) (Pn P : Nat → Nat → ℚ) : ℚ :=
  ∑ i ∈ Finset.range n, ∑ k ∈ Finset.range K, |Pn i k - P i k|

/-- The bounded iteration with early stopping: run the step, break after
the assignment when the change drops below tol. -/
def pzsLoop (step : (Nat → Nat → ℚ) → Nat → Nat → ℚ) (n K : Nat) (tol : ℚ) :
    Nat → (Nat → Nat → ℚ) → Nat → Nat → ℚ
  | 0, P => P
  | f + 1, P =>
      let Pn := step P
      if pzsDelta n K Pn P < tol then Pn else pzsLoop step n K tol f Pn

/-- _transform_single: PZS starts at zero, at most max_iter + 1
iterations run, and the result is the column sums of PZS normalized by
the total mass. -/
def transformSingle (phi : Nat → Nat → ℚ) (doc : List Nat) (K : Nat)
    (alpha tol : ℚ) (maxIter : Nat) : Nat → ℚ :=
  let n := doc.length
  let P := pzsLoop (pzsStepCode phi doc K alpha) n K tol (maxIter + 1) (fun _ _ => 0)
  fun k => pzsColSum P n k / (∑ k' ∈ Finset.range K, pzsColSum P n k')

/-- _transform_single with the update written the way the spec words it;
used to check the code form against the spec sentence. -/
def transformSingleSpec (phi : Nat → Nat → ℚ) (doc : List Nat) (K : Nat)
    (alpha tol : ℚ) (maxIter : Nat) : Nat → ℚ :=
  let n := doc.length
  let P := pzsLoop (pzsStepSpec phi doc K alpha) n K tol (maxIter + 1) (fun _ _ => 0)
  fun k => pzsColSum P n k / (∑ k' ∈ Finset.range K, pzsColSum P n k')

/-- The word-id sequence of document d in the token stream of X
(WS[DS == d]). -/
def docWords (X : List (List Nat)) (d : Nat) : List Nat :=
  ((matrixToLists X).filter (fun t => decide (t.2 = d))).map Prod.fst

/-- transform: the output buffer comes from np.empty (its prior contents
doctInit are arbitrary) and only the rows of documents that appear in DS,
i.e. documents with at least one token, are overwritten. -/
def transform (doctInit : Nat → Nat → ℚ) (phi : Nat → Nat → ℚ) (X : List (List Nat))
    (K : Nat) (alpha tol : ℚ) (maxIter : Nat) : Nat → Nat → ℚ :=
  fun d =>
    if (docWords X d).length = 0 then doctInit d
    else transformSingle phi (docWords X d) K alpha tol maxIter

/-! ## Perplexity (lda.py lines 240-262) -/

/-- p(w) for entry (d, w): sum over topics of doc_topic * topic_word. -/
def probWord (theta phi : Nat → Nat → ℚ) (K d w : Nat) : ℚ :=
  ∑ k ∈ Finset.range K, theta d k * phi k w

/-- Total token count of a matrix given as a function with explicit
bounds. -/
def totalCountM (X : Nat → Nat → Nat) (D V : Nat) : Nat :=
  ∑ d ∈ Finset.range D, ∑ w ∈ Finset.range V, X d w

/-- perplexity: exp of minus the average, over tokens, of the log
word probabilities at the nonzero matrix entries. -/
noncomputable def perplexity (X : Nat → Nat → Nat) (theta phi : Nat → Nat → ℚ)
    (D V K : Nat) : ℝ :=
  Real.exp (-(∑ d ∈ Finset.range D, ∑ w ∈ Finset.range V,
      if X d w ≠ 0 then (X d w : ℝ) * Real.log (probWord theta phi K d w) else 0)
    / (totalCountM X D V : ℝ))

/-! ## Coherence score ck (lda.py lines 293-314) -/

/-- count[s, d, z]: the number of tokens (w, d, z) in the stream whose
word is a top word of its assigned topic z and whose slot
word_id[z].index(w) + 12 * z equals s.  A token is (w, d, z). -/
def topCount (tokens : List (Nat × Nat × Nat)) (wordId : Nat → List Nat)
    (s d z : Nat) : Nat :=
  tokens.countP (fun t =>
    decide (t.1 ∈ wordId t.2.2 ∧ (wordId t.2.2).indexOf t.1 + 12 * t.2.2 = s ∧
      t.2.1 = d ∧ t.2.2 = z))

/-- con_frequency for slot pair (m, l) of topic i: documents where both
slots have nonzero count. -/
def conFrequency (tokens : List (Nat × Nat × Nat)) (wordId : Nat → List Nat)
    (D m l i : Nat) : Nat :=
  ((Finset.range D).filter (fun d =>
    topCount tokens wordId m d i ≠ 0 ∧ topCount tokens wordId l d i ≠ 0)).card

/-- self_frequency for slot l of topic i: documents where slot l has
nonzero count. -/
def selfFrequency (tokens : List (Nat × Nat × Nat)) (wordId : Nat → List Nat)
    (D l i : Nat) : Nat :=
  ((Finset.range D).filter (fun d => topCount tokens wordId l d i ≠ 0)).card

/-- The (m, l) slot pairs of topic i in the iteration order of the ck
loops: m ranges over i*12+1 .. i*12+11 and l over i*12 .. m-1. -/
def ckPairs (i : Nat) : List (Nat × Nat) :=
  ((List.range 11).map (fun a =>
    (List.range (a + 1)).map (fun b => (i * 12 + a + 1, i * 12 + b)))).flatten

/-- The terms accumulated into ck[i], one per slot pair, each the ratio
(con_frequency + 1) / self_frequency; the division raises when
self_frequency is 0. -/
def ckTopicTerms (tokens : List (Nat × Nat × Nat)) (wordId : Nat → List Nat)
    (D i : Nat) : Except LDAError (List ℚ) :=
  (ckPairs i).mapM (fun p =>
    if selfFrequency tokens wordId D p.2 i = 0 then .error .zeroDivision
    else .ok (((conFrequency tokens wordId D p.1 p.2 i : ℚ) + 1)
      / (selfFrequency tokens wordId D p.2 i : ℚ)))

/-! ## Lemmas: pointwise updates and their sums -/

theorem upd2_apply (f : Nat → Nat → Int) (a b : Nat) (v : Int) (x y : Nat) :
    upd2 f a b v x y = f x y + (if x = a ∧ y = b then v else 0) := by
  unfold upd2
  split <;> simp

theorem upd1_apply (f : Nat → Int) (a : Nat) (v : Int) (x : Nat) :
    upd1 f a v x = f x + (if x = a then v else 0) := by
  unfold upd1
  split <;> simp

theorem sum_upd2_row (f : Nat → Nat → Int) (a b : Nat) (v : Int) (W z : Nat) (hb : b < W) :
    ∑ w ∈ Finset.range W, upd2 f a b v z w
      = (∑ w ∈ Finset.range W, f z w) + (if z = a then v else 0) := by
  simp only [upd2_apply, Finset.sum_add_distrib]
  congr 1
  by_cases hz : z = a
  · subst hz
    simp only [true_and, if_pos rfl]
    rw [Finset.sum_ite_eq' (Finset.range W) b (fun _ => v)]
    simp [hb]
  · simp [hz]

theorem sum_upd2_col (f : Nat → Nat → Int) (a b : Nat) (v : Int) (D z : Nat) (ha : a < D) :
    ∑ d ∈ Finset.range D, upd2 f a b v d z
      = (∑ d ∈ Finset.range D, f d z) + (if z = b then v else 0) := by
  simp only [upd2_apply, Finset.sum_add_distrib]
  congr 1
  by_cases hz : z = b
  · subst hz
    simp only [and_true]
    rw [Finset.sum_ite_eq' (Finset.range D) a (fun _ => v)]
    simp [ha]
  · simp [hz]

theorem sum2_upd2 (f : Nat → Nat → Int) (a b : Nat) (v : Int) (D K : Nat)
    (ha : a < D) (hb : b < K) :
    ∑ d ∈ Finset.range D, ∑ z ∈ Finset.range K, upd2 f a b v d z
      = (∑ d ∈ Finset.range D, ∑ z ∈ Finset.range K, f d z) + v := by
  have h : ∀ d, ∑ z ∈ Finset.range K, upd2 f a b v d z
      = (∑ z ∈ Finset.range K, f d z) + (if d = a then v else 0) := by
    intro d
    simp only [upd2_apply, Finset.sum_add_distrib]
    congr 1
    by_cases hd : d = a
    · subst hd
      simp only [true_and]
      rw [Finset.sum_ite_eq' (Finset.range K) b (fun _ => v)]
      simp [hb]
    · simp [hd]
  simp only [h, Finset.sum_add_distrib]
  congr 1
  rw [Finset.sum_ite_eq' (Finset.range D) a (fun _ => v)]
  simp [ha]

theorem bumpCounts_rowSum (s : GibbsState) (z w d : Nat) (v : Int) (W z' : Nat) (hw : w < W) :
    rowSumNzw (bumpCounts s z w d v) W z' = rowSumNzw s W z' + (if z' = z then v else 0) := by
  unfold rowSumNzw bumpCounts
  exact sum_upd2_row s.nzw z w v W z' hw

theorem bumpCounts_nz (s : GibbsState) (z w d : Nat) (v : Int) (z' : Nat) :
    (bumpCounts s z w d v).nz z' = s.nz z' + (if z' = z then v else 0) := by
  unfold bumpCounts
  exact upd1_apply s.nz z v z'

theorem bumpCounts_colSum (s : GibbsState) (z w d : Nat) (v : Int) (D z' : Nat) (hd : d < D) :
    colSumNdz (bumpCounts s z w d v) D z' = colSumNdz s D z' + (if z' = z then v else 0) := by
  unfold colSumNdz bumpCounts
  exact sum_upd2_col s.ndz d z v D z' hd

theorem bumpCounts_total (s : GibbsState) (z w d : Nat) (v : Int) (D K : Nat)
    (hd : d < D) (hz : z < K) :
    totalNdz (bumpCounts s z w d v) D K = totalNdz s D K + v := by
  unfold totalNdz bumpCounts
  exact sum2_upd2 s.ndz d z v D K hd hz

theorem bumpCounts_zs (s : GibbsState) (z w d : Nat) (v : Int) :
    (bumpCounts s z w d v).zs = s.zs := rfl

/-! ## Lemmas: the token stream expansion -/

theorem length_expandRowFrom (d : Nat) : ∀ (row : List Nat) (w : Nat),
    (expandRowFrom d w row).length = row.sum := by
  intro row
  induction row with
  | nil => intro w; simp [expandRowFrom]
  | cons c rest ih =>
      intro w
      simp [expandRowFrom, ih, Nat.add_comm]

theorem length_matrixRowsFrom : ∀ (X : List (List Nat)) (d : Nat),
    (matrixRowsFrom d X).length = (X.map List.sum).sum := by
  intro X
  induction X with
  | nil => intro d; simp [matrixRowsFrom]
  | cons row rest ih =>
      intro d
      simp [matrixRowsFrom, length_expandRowFrom, ih]

theorem length_matrixToLists (X : List (List Nat)) :
    (matrixToLists X).length = totalTokens X :=
  length_matrixRowsFrom X 0

theorem mem_expandRowFrom (d : Nat) : ∀ (row : List Nat) (w : Nat) (t : Nat × Nat),
    t ∈ expandRowFrom d w row → t.2 = d ∧ t.1 < w + row.length := by
  intro row
  induction row with
  | nil => intro w t h; simp [expandRowFrom] at h
  | cons c rest ih =>
      intro w t h
      simp only [expandRowFrom, List.mem_append] at h
      rcases h with h | h
      · have := List.eq_of_mem_replicate h
        subst this
        constructor
        · rfl
        · simp only [List.length_cons]
          omega
      · obtain ⟨h1, h2⟩ := ih (w + 1) t h
        refine ⟨h1, ?_⟩
        simp only [List.length_cons]
        omega

theorem mem_matrixRowsFrom : ∀ (X : List (List Nat)) (d : Nat) (t : Nat × Nat),
    t ∈ matrixRowsFrom d X → (∃ r ∈ X, t.1 < r.length) ∧ t.2 < d + X.length := by
  intro X
  induction X with
  | nil => intro d t h; simp [matrixRowsFrom] at h
  | cons row rest ih =>
      intro d t h
      simp only [matrixRowsFrom, List.mem_append] at h
      rcases h with h | h
      · obtain ⟨h2, h1⟩ := mem_expandRowFrom d row 0 t h
        constructor
        · exact ⟨row, List.mem_cons_self _ _, by simpa using h1⟩
        · simp only [List.length_cons]
          omega
      · obtain ⟨⟨r, hr, h1⟩, h2⟩ := ih (d + 1) t h
        constructor
        · exact ⟨r, List.mem_cons_of_mem _ hr, h1⟩
        · simp only [List.length_cons]
          omega

/-- Every token of the stream has its word below the row width and its
document below the number of rows. -/
def TokensValid (W D : Nat) (tokens : List (Nat × Nat)) : Prop :=
  ∀ t ∈ tokens, t.1 < W ∧ t.2 < D

theorem tokensValid_matrixToLists (X : List (List Nat)) (W : Nat)
    (hrows : ∀ r ∈ X, r.length = W) :
    TokensValid W X.length (matrixToLists X) := by
  intro t ht
  obtain ⟨⟨r, hr, h1⟩, h2⟩ := mem_matrixRowsFrom X 0 t ht
  exact ⟨by rw [← hrows r hr]; exact h1, by simpa using h2⟩

/-! ## Lemmas: the count invariant across initialization and passes -/

theorem getD_set_lt {l : List Nat} {i j : Nat} {a : Nat} :
    (l.set i a).getD j 0 = if i = j ∧ i < l.length then a else l.getD j 0 := by
  simp only [List.getD_eq_getElem?_getD, List.getElem?_set]
  by_cases h1 : i = j
  · subst h1
    by_cases h2 : i < l.length
    · simp [h2]
    · simp only [if_pos rfl, if_neg h2, h2, and_false, if_false]
      rw [List.getElem?_eq_none (by omega)]
      rfl
  · simp [h1]

theorem find_getD_lt (p : Nat → Bool) (K : Nat) (hK : 0 < K) :
    ((List.range K).find? p).getD (K - 1) < K := by
  cases hf : (List.range K).find? p with
  | none => simpa using Nat.sub_lt hK Nat.one_pos
  | some k =>
      have hm := List.mem_of_find?_eq_some hf
      simpa using List.mem_range.mp hm

theorem chooseTopic_lt (K W : Nat) (alpha eta lamda : ℚ) (twa : Nat → Nat → ℚ)
    (s : GibbsState) (w d : Nat) (u : ℚ) (hK : 0 < K) :
    chooseTopic K W alpha eta lamda twa s w d u < K := by
  unfold chooseTopic
  exact find_getD_lt _ K hK

theorem sampleToken_invariant (K W D N : Nat) (alpha eta lamda : ℚ)
    (twa : Nat → Nat → ℚ) (rands : Nat → ℚ) (tokens : List (Nat × Nat))
    (hTV : TokensValid W D tokens) (hN : tokens.length = N) (hK : 0 < K)
    (s : GibbsState) (i : Nat) (hi : i < N)
    (h : CountInvariant K W D N s) :
    CountInvariant K W D N (sampleToken K W alpha eta lamda twa rands tokens s i) := by
  obtain ⟨hsum, htot, hlen, hzs⟩ := h
  have hmem : tokens.getD i (0, 0) ∈ tokens := by
    have hi' : i < tokens.length := by omega
    rw [List.getD_eq_getElem tokens (0, 0) hi']
    exact List.getElem_mem hi'
  obtain ⟨hw, hd⟩ := hTV _ hmem
  set w := (tokens.getD i (0, 0)).1 with hw_def
  set d := (tokens.getD i (0, 0)).2 with hd_def
  set z := s.zs.getD i 0 with hz_def
  have hz : z < K := hzs i hi
  unfold sampleToken
  set s1 := bumpCounts s z w d (-1) with hs1
  set k := chooseTopic K W alpha eta lamda twa s1 w d (rands i) with hk_def
  have hk : k < K := chooseTopic_lt K W alpha eta lamda twa s1 w d (rands i) hK
  set s2 : GibbsState := { s1 with zs := s1.zs.set i k } with hs2
  refine ⟨?_, ?_, ?_, ?_⟩
  · intro z' hz'
    have h1 := (hsum z' hz').1
    have h2 := (hsum z' hz').2
    constructor
    · rw [bumpCounts_rowSum s2 k w d 1 W z' hw, bumpCounts_nz s2 k w d 1 z']
      have e1 : rowSumNzw s2 W z' = rowSumNzw s1 W z' := rfl
      have e2 : s2.nz z' = s1.nz z' := rfl
      rw [e1, e2, hs1, bumpCounts_rowSum s z w d (-1) W z' hw, bumpCounts_nz s z w d (-1) z']
      rw [h1]
    · rw [bumpCounts_nz s2 k w d 1 z', bumpCounts_colSum s2 k w d 1 D z' hd]
      have e2 : s2.nz z' = s1.nz z' := rfl
      have e3 : colSumNdz s2 D z' = colSumNdz s1 D z' := rfl
      rw [e2, e3, hs1, bumpCounts_nz s z w d (-1) z', bumpCounts_colSum s z w d (-1) D z' hd]
      rw [h2]
  · rw [bumpCounts_total s2 k w d 1 D K hd hk]
    have e : totalNdz s2 D K = totalNdz s1 D K := rfl
    rw [e, hs1, bumpCounts_total s z w d (-1) D K hd hz, htot]
    ring
  · show s2.zs.length = N
    simp only [hs2, List.length_set]
    exact hlen
  · intro j hj
    show s2.zs.getD j 0 < K
    simp only [hs2]
    rw [getD_set_lt]
    split
    · exact hk
    · exact hzs j hj

theorem foldl_preserve {α : Type} (P : α → Prop) (step : α → Nat → α) :
    ∀ (l : List Nat) (a : α), (∀ b i, i ∈ l → P b → P (step b i)) → P a → P (l.foldl step a) := by
  intro l
  induction l with
  | nil => intro a _ h; exact h
  | cons hd tl ih =>
      intro a hstep h
      exact ih (step a hd) (fun b i hi hb => hstep b i (List.mem_cons_of_mem hd hi) hb)
        (hstep a hd (List.mem_cons_self hd tl) h)

theorem samplePass_invariant (K W D N : Nat) (alpha eta lamda : ℚ)
    (twa : Nat → Nat → ℚ) (rands : Nat → ℚ) (tokens : List (Nat × Nat))
    (hTV : TokensValid W D tokens) (hN : tokens.length = N) (hK : 0 < K)
    (s : GibbsState) (h : CountInvariant K W D N s) :
    CountInvariant K W D N (samplePass K W alpha eta lamda twa rands tokens s) := by
  unfold samplePass
  refine foldl_preserve (CountInvariant K W D N) _ (List.range tokens.length) s ?_ h
  intro b i hi hb
  exact sampleToken_invariant K W D N alpha eta lamda twa rands tokens hTV hN hK b i
    (by rw [← hN]; exact List.mem_range.mp hi) hb

theorem initState0_partial (N : Nat) (K W D : Nat) (hK : 0 < K) :
    (∀ z < K, rowSumNzw (initState0 N) W z = (initState0 N).nz z ∧
      (initState0 N).nz z = colSumNdz (initState0 N) D z) ∧
    totalNdz (initState0 N) D K = 0 ∧ (initState0 N).zs.length = N ∧
    ∀ i < N, (initState0 N).zs.getD i 0 < K := by
  refine ⟨?_, ?_, ?_, ?_⟩
  · intro z _
    simp [initState0, rowSumNzw, colSumNdz]
  · simp [initState0, totalNdz]
  · simp [initState0]
  · intro i _
    simp only [initState0, List.getD_eq_getElem?_getD, List.getElem?_replicate]
    split <;> simpa

theorem initToken_partial (K : Nat) (tokens : List (Nat × Nat)) (W D N j : Nat)
    (hTV : TokensValid W D tokens) (hN : tokens.length = N) (hK : 0 < K) (hj : j < N)
    (s : GibbsState)
    (h : (∀ z < K, rowSumNzw s W z = s.nz z ∧ s.nz z = colSumNdz s D z) ∧
      totalNdz s D K = (j : Int) ∧ s.zs.length = N ∧ ∀ i < N, s.zs.getD i 0 < K) :
    (∀ z < K, rowSumNzw (initToken K tokens s j) W z = (initToken K tokens s j).nz z ∧
      (initToken K tokens s j).nz z = colSumNdz (initToken K tokens s j) D z) ∧
    totalNdz (initToken K tokens s j) D K = (j : Int) + 1 ∧
    (initToken K tokens s j).zs.length = N ∧
    ∀ i < N, (initToken K tokens s j).zs.getD i 0 < K := by
  obtain ⟨hsum, htot, hlen, hzs⟩ := h
  have hmem : tokens.getD j (0, 0) ∈ tokens := by
    have hj' : j < tokens.length := by omega
    rw [List.getD_eq_getElem tokens (0, 0) hj']
    exact List.getElem_mem hj'
  obtain ⟨hw, hd⟩ := hTV _ hmem
  have hmod : j % K < K := Nat.mod_lt j hK
  unfold initToken
  set w := (tokens.getD j (0, 0)).1
  set d := (tokens.getD j (0, 0)).2
  set s2 : GibbsState := { s with zs := s.zs.set j (j % K) } with hs2
  refine ⟨?_, ?_, ?_, ?_⟩
  · intro z' hz'
    have h1 := (hsum z' hz').1
    have h2 := (hsum z' hz').2
    constructor
    · rw [bumpCounts_rowSum s2 (j % K) w d 1 W z' hw, bumpCounts_nz s2 (j % K) w d 1 z']
      have e1 : rowSumNzw s2 W z' = rowSumNzw s W z' := rfl
      have e2 : s2.nz z' = s.nz z' := rfl
      rw [e1, e2, h1]
    · rw [bumpCounts_nz s2 (j % K) w d 1 z', bumpCounts_colSum s2 (j % K) w d 1 D z' hd]
      have e2 : s2.nz z' = s.nz z' := rfl
      have e3 : colSumNdz s2 D z' = colSumNdz s D z' := rfl
      rw [e2, e3, h2]
  · rw [bumpCounts_total s2 (j % K) w d 1 D K hd hmod]
    have e : totalNdz s2 D K = totalNdz s D K := rfl
    rw [e, htot]
  · show s2.zs.length = N
    simp only [hs2, List.length_set]
    exact hlen
  · intro i hi
    show s2.zs.getD i 0 < K
    simp only [hs2]
    rw [getD_set_lt]
    split
    · exact hmod
    · exact hzs i hi

theorem initState_invariant (K : Nat) (X : List (List Nat)) (W D : Nat)
    (hK : 0 < K) (hD : X.length = D) (hrows : ∀ r ∈ X, r.length = W) :
    CountInvariant K W D (totalTokens X) (initState K X) := by
  have hTV : TokensValid W D (matrixToLists X) := by
    rw [← hD]
    exact tokensValid_matrixToLists X W hrows
  have hN : (matrixToLists X).length = totalTokens X := length_matrixToLists X
  set N := totalTokens X with hNdef
  set tokens := matrixToLists X with htokens
  have main : ∀ j ≤ N,
      (∀ z < K, rowSumNzw ((List.range j).foldl (initToken K tokens) (initState0 N)) W z
          = ((List.range j).foldl (initToken K tokens) (initState0 N)).nz z ∧
        ((List.range j).foldl (initToken K tokens) (initState0 N)).nz z
          = colSumNdz ((List.range j).foldl (initToken K tokens) (initState0 N)) D z) ∧
      totalNdz ((List.range j).foldl (initToken K tokens) (initState0 N)) D K = (j : Int) ∧
      ((List.range j).foldl (initToken K tokens) (initState0 N)).zs.length = N ∧
      ∀ i < N, ((List.range j).foldl (initToken K tokens) (initState0 N)).zs.getD i 0 < K := by
    intro j
    induction j with
    | zero =>
        intro _
        simpa using initState0_partial N K W D hK
    | succ j ih =>
        intro hj
        rw [List.range_succ, List.foldl_append]
        have prev := ih (by omega)
        have := initToken_partial K tokens W D N j hTV hN hK (by omega)
          ((List.range j).foldl (initToken K tokens) (initState0 N)) prev
        simpa using this
  have hfin := main N (le_refl N)
  show CountInvariant K W D N
    ((List.range tokens.length).foldl (initToken K tokens) (initState0 tokens.length))
  rw [hN]
  exact hfin

/-- Claim C1: after initialization and after every full sampling pass,
for every topic z the word-sum of nzw agrees with nz and with the
document-sum of ndz, and the grand total of ndz stays equal to the token
count N.  The per-pass variate buffers and adjusted topic-word matrices
are arbitrary, covering every schedule _fit can produce. -/
theorem claim_C1_count_invariants (X : List (List Nat)) (K W D : Nat)
    (alpha eta lamda : ℚ) (twaSeq : Nat → Nat → Nat → ℚ) (randsSeq : Nat → Nat → ℚ)
    (m : Nat) (hK : 0 < K) (hD : X.length = D) (hrows : ∀ r ∈ X, r.length = W) :
    CountInvariant K W D (totalTokens X) (initState K X) ∧
    CountInvariant K W D (totalTokens X)
      (runPasses K W alpha eta lamda twaSeq randsSeq (matrixToLists X) m (initState K X)) := by
  have hTV : TokensValid W D (matrixToLists X) := by
    rw [← hD]
    exact tokensValid_matrixToLists X W hrows
  have hN : (matrixToLists X).length = totalTokens X := length_matrixToLists X
  have hinit := initState_invariant K X W D hK hD hrows
  refine ⟨hinit, ?_⟩
  have pres : ∀ (m : Nat) (s : GibbsState), CountInvariant K W D (totalTokens X) s →
      CountInvariant K W D (totalTokens X)
        (runPasses K W alpha eta lamda twaSeq randsSeq (matrixToLists X) m s) := by
    intro m
    induction m with
    | zero => intro s h; exact h
    | succ m ih =>
        intro s h
        exact ih _ (samplePass_invariant K W D (totalTokens X) alpha eta lamda
          (twaSeq m) (randsSeq m) (matrixToLists X) hTV hN hK s h)
  exact pres m _ hinit

/-- Witness for C1 at a concrete instance: two documents over a
one-word vocabulary, two topics, one sampling pass. -/
theorem claim_C1_witness :
    CountInvariant 2 1 2 (totalTokens [[1], [1]]) (initState 2 [[1], [1]]) ∧
    CountInvariant 2 1 2 (totalTokens [[1], [1]])
      (runPasses 2 1 0 0 0 (fun _ _ _ => 0) (fun _ _ => 0) (matrixToLists [[1], [1]]) 1
        (initState 2 [[1], [1]])) :=
  claim_C1_count_invariants [[1], [1]] 2 1 2 0 0 0 (fun _ _ _ => 0) (fun _ _ => 0) 1
    (by decide) (by decide) (by decide)

/-! ## Constructor validation (C4) -/

/-- Claim C4: construction raises the invalid-configuration error exactly
when alpha <= 0 or eta <= 0; the check is the only fallible step of
__init__, so for positive alpha and eta construction succeeds and no
fitting has happened yet when the error is raised. -/
theorem claim_C4_config_validation (nTopics : Int) (nIter : Nat) (alpha eta lamda : ℚ)
    (refresh : Nat) :
    isErr (ldaNew nTopics nIter alpha eta lamda refresh) = true ↔ alpha ≤ 0 ∨ eta ≤ 0 := by
  unfold ldaNew
  by_cases h : alpha ≤ 0 ∨ eta ≤ 0 <;> simp [h, isErr]

/-! ## Initialization with non-positive n_topics (C5) -/

theorem foldlM_initTokenE_ok (K : Int) (tokens : List (Nat × Nat)) (hK : ¬K = 0) :
    ∀ (l : List Nat) (s : GibbsState),
      l.foldlM (initTokenE K tokens) s = .ok (l.foldl (initToken K.toNat tokens) s) := by
  intro l
  induction l with
  | nil => intro s; rfl
  | cons a l ih =>
      intro s
      simp only [List.foldlM_cons, initTokenE, if_neg hK, List.foldl_cons]
      exact ih (initToken K.toNat tokens s a)

theorem foldlM_initTokenE_zero (tokens : List (Nat × Nat)) (a : Nat) (l : List Nat)
    (s : GibbsState) :
    (a :: l).foldlM (initTokenE 0 tokens) s = .error LDAError.zeroDivision := by
  simp only [List.foldlM_cons, initTokenE, if_pos rfl]
  rfl

/-- Counterexample to claim C5 as stated: with n_topics = 0 and an
all-zero input matrix the token loop never runs, so initialization
completes without raising, although n_topics <= 0. -/
theorem claim_C5_counterexample :
    isErr (initializeE 0 [[0]]) = false ∧ (0 : Int) ≤ 0 := by
  constructor
  · rfl
  · decide

/-- Claim C5 amended: initialization fails exactly when n_topics is
negative (numpy rejects the array shape) or n_topics = 0 and the matrix
contains at least one token (ZeroDivisionError from i % n_topics); there
is no invalid-configuration check, and an all-zero matrix with
n_topics = 0 initializes without error. -/
theorem claim_C5_amended (K : Int) (X : List (List Nat)) :
    isErr (initializeE K X) = true ↔ K < 0 ∨ (K = 0 ∧ 0 < totalTokens X) := by
  unfold initializeE
  by_cases hneg : K < 0
  · simp [hneg, isErr]
  · simp only [if_neg hneg]
    by_cases hz : K = 0
    · subst hz
      cases hr : List.range (matrixToLists X).length with
      | nil =>
          have h0 : (matrixToLists X).length = 0 := by
            by_contra hne
            have := List.range_eq_nil.mp hr
            omega
          rw [length_matrixToLists] at h0
          show false = true ↔ (0 : Int) < 0 ∨ ((0 : Int) = 0 ∧ 0 < totalTokens X)
          simp [h0]
      | cons a l =>
          have h0 : (matrixToLists X).length ≠ 0 := by
            intro he
            rw [he] at hr
            simp at hr
          rw [length_matrixToLists] at h0
          rw [foldlM_initTokenE_zero]
          simp only [isErr, true_iff]
          exact Or.inr ⟨by simp, by omega⟩
    · rw [foldlM_initTokenE_ok K (matrixToLists X) hz]
      simp [isErr, hneg, hz]

/-! ## The low-relevance adjustment loop (C2) -/

theorem updQ_same (f : Nat → ℚ) (a : Nat) (v : ℚ) : updQ f a v a = v := by
  unfold updQ
  rw [if_pos rfl]

theorem updQ_other (f : Nat → ℚ) (a : Nat) (v : ℚ) (x : Nat) (h : x ≠ a) :
    updQ f a v x = f x := by
  unfold updQ
  rw [if_neg h]

theorem adjustWordStep_eq (tm : List Nat) (mr : List ℚ) (rp : (Nat → ℚ) × ℚ) (i : Nat) :
    adjustWordStep tm mr rp i =
      (updQ rp.1 (tm.getD i 0)
        (if 0 < mr.getD i 0 then rp.1 (tm.getD i 0) * mr.getD i 0 else 0),
       rp.2 + (if 0 < mr.getD i 0
        then rp.1 (tm.getD i 0) * mr.getD i 0 * (1 - mr.getD i 0) else 0)) := by
  by_cases h : 0 < mr.getD i 0
  · show (if 0 < mr.getD i 0 then _ else _) = _
    rw [if_pos h, if_pos h, if_pos h]
    refine Prod.ext rfl ?_
    show rp.2 + updQ rp.1 (tm.getD i 0) (rp.1 (tm.getD i 0) * mr.getD i 0) (tm.getD i 0)
        * (1 - mr.getD i 0) = _
    rw [updQ_same]
  · show (if 0 < mr.getD i 0 then _ else _) = _
    rw [if_neg h, if_neg h, if_neg h]
    refine Prod.ext rfl ?_
    show rp.2 + updQ rp.1 (tm.getD i 0) 0 (tm.getD i 0) = _
    rw [updQ_same]

theorem adjustSelected_aux (tm : List Nat) (mr : List ℚ) :
    ∀ (l : List Nat) (row : Nat → ℚ) (p : ℚ),
      (l.map (fun i => tm.getD i 0)).Nodup →
      (l.foldl (adjustWordStep tm mr) (row, p)).2
          = p + (l.map (fun i => if 0 < mr.getD i 0
              then row (tm.getD i 0) * mr.getD i 0 * (1 - mr.getD i 0) else 0)).sum ∧
        (∀ x, x ∉ l.map (fun i => tm.getD i 0) →
          (l.foldl (adjustWordStep tm mr) (row, p)).1 x = row x) ∧
        ∀ i ∈ l, (l.foldl (adjustWordStep tm mr) (row, p)).1 (tm.getD i 0)
          = (if 0 < mr.getD i 0 then row (tm.getD i 0) * mr.getD i 0 else 0) := by
  intro l
  induction l with
  | nil =>
      intro row p _
      refine ⟨by simp, fun x _ => rfl, by simp⟩
  | cons a l ih =>
      intro row p hnd
      simp only [List.map_cons, List.nodup_cons] at hnd
      obtain ⟨ha, hnd'⟩ := hnd
      simp only [List.foldl_cons, adjustWordStep_eq]
      set row1 := updQ row (tm.getD a 0)
        (if 0 < mr.getD a 0 then row (tm.getD a 0) * mr.getD a 0 else 0) with hrow1
      have hrow1_eq : ∀ i ∈ l, row1 (tm.getD i 0) = row (tm.getD i 0) := by
        intro i hi
        have hne : tm.getD i 0 ≠ tm.getD a 0 := by
          intro he
          exact ha (by rw [← he]; exact List.mem_map_of_mem _ hi)
        exact updQ_other row (tm.getD a 0) _ (tm.getD i 0) hne
      obtain ⟨h2, h1, h3⟩ := ih row1 _ hnd'
      refine ⟨?_, ?_, ?_⟩
      · rw [h2]
        have : (l.map (fun i => if 0 < mr.getD i 0
            then row1 (tm.getD i 0) * mr.getD i 0 * (1 - mr.getD i 0) else 0))
            = l.map (fun i => if 0 < mr.getD i 0
            then row (tm.getD i 0) * mr.getD i 0 * (1 - mr.getD i 0) else 0) := by
          refine List.map_congr_left ?_
          intro i hi
          rw [hrow1_eq i hi]
        rw [this]
        simp only [List.map_cons, List.sum_cons]
        by_cases h : 0 < mr.getD a 0
        · simp only [if_pos h, hrow1, updQ, if_pos rfl]
          ring
        · simp only [if_neg h, hrow1, updQ, if_pos rfl]
          ring
      · intro x hx
        simp only [List.map_cons, List.mem_cons, not_or] at hx
        rw [h1 x hx.2]
        exact updQ_other row (tm.getD a 0) _ x hx.1
      · intro i hi
        rcases List.mem_cons.mp hi with he | hmem
        · subst he
          rw [h1 _ ha]
          exact updQ_same row (tm.getD i 0) _
        · rw [h3 i hmem, hrow1_eq i hmem]

/-- Counterexample to claim C2 as stated, on a uniform 12-word top list
with the five selected words all of relevance 1/2: the code adds
p*r*(1-r) = 5/48 to the pool (it reads the entry after scaling it),
not the removed mass p*(1-r) = 5/24; and with a negative relevance the
code adds 0, not the full previous mass. -/
theorem claim_C2_counterexample :
    (adjustSelected [0, 1, 2, 3, 4, 5, 6, 7, 8, 9, 10, 11]
        [1/2, 1/2, 1/2, 1/2, 1/2, 1, 1, 1, 1, 1, 1, 1]
        (fun w => if w < 12 then (1 : ℚ)/12 else 0) [0, 1, 2, 3, 4]).2 = 5/48 ∧
    (5 : ℚ) * ((1/12) * (1 - 1/2)) = 5/24 ∧ (5 : ℚ)/48 ≠ 5/24 ∧
    (adjustSelected [0] [-1/2] (fun _ => (1 : ℚ)/2) [0]).2 = 0 ∧ (1 : ℚ)/2 ≠ 0 := by
  refine ⟨?_, by norm_num, by norm_num, ?_, by norm_num⟩
  · norm_num [adjustSelected, adjustWordStep, updQ]
  · norm_num [adjustSelected, adjustWordStep, updQ]

/-- Claim C2 amended: for each selected position i with word id a and
pre-adjustment probability p = row a, if relevance r > 0 the entry
becomes p * r and the pool gains p * r * (1 - r) (the code accumulates
the already-scaled entry times (1 - r)); if r <= 0 the entry becomes 0
and the pool gains 0 (the code accumulates the already-zeroed entry).
Stated for any selection whose word ids are distinct. -/
theorem claim_C2_amended (topicMost : List Nat) (minRele : List ℚ) (row : Nat → ℚ)
    (minIndex : List Nat)
    (hnd : (minIndex.map (fun i => topicMost.getD i 0)).Nodup) :
    (adjustSelected topicMost minRele row minIndex).2
        = (minIndex.map (fun i => if 0 < minRele.getD i 0
            then row (topicMost.getD i 0) * minRele.getD i 0 * (1 - minRele.getD i 0)
            else 0)).sum ∧
      (∀ i ∈ minIndex, (adjustSelected topicMost minRele row minIndex).1 (topicMost.getD i 0)
        = (if 0 < minRele.getD i 0 then row (topicMost.getD i 0) * minRele.getD i 0 else 0)) ∧
      ∀ x, x ∉ minIndex.map (fun i => topicMost.getD i 0) →
        (adjustSelected topicMost minRele row minIndex).1 x = row x := by
  obtain ⟨h2, h1, h3⟩ := adjustSelected_aux topicMost minRele minIndex row 0 hnd
  refine ⟨?_, h3, h1⟩
  show (minIndex.foldl (adjustWordStep topicMost minRele) (row, 0)).2 = _
  rw [h2, zero_add]

/-- Witness for the amended C2 on the concrete uniform example. -/
theorem claim_C2_amended_witness :
    (adjustSelected [0, 1, 2, 3, 4, 5, 6, 7, 8, 9, 10, 11]
        [1/10, 2/10, 3/10, 4/10, 5/10, 1, 1, 1, 1, 1, 1, 1]
        (fun w => if w < 12 then (1 : ℚ)/12 else 0) [0, 1, 2, 3, 4]).2
      = ([0, 1, 2, 3, 4].map (fun i =>
          if 0 < ([1/10, 2/10, 3/10, 4/10, 5/10, 1, 1, 1, 1, 1, 1, 1] : List ℚ).getD i 0
          then (fun w => if w < 12 then (1 : ℚ)/12 else 0)
              (([0, 1, 2, 3, 4, 5, 6, 7, 8, 9, 10, 11] : List Nat).getD i 0)
            * ([1/10, 2/10, 3/10, 4/10, 5/10, 1, 1, 1, 1, 1, 1, 1] : List ℚ).getD i 0
            * (1 - ([1/10, 2/10, 3/10, 4/10, 5/10, 1, 1, 1, 1, 1, 1, 1] : List ℚ).getD i 0)
          else 0)).sum :=
  (claim_C2_amended [0, 1, 2, 3, 4, 5, 6, 7, 8, 9, 10, 11]
    [1/10, 2/10, 3/10, 4/10, 5/10, 1, 1, 1, 1, 1, 1, 1]
    (fun w => if w < 12 then (1 : ℚ)/12 else 0) [0, 1, 2, 3, 4] (by decide)).1

/-! ## Row sums of the final blended topic_word (C3) -/

theorem normalizeRows_rowSum (nzw : Nat → Nat → Int) (W : Nat) (eta : ℚ) (z : Nat)
    (hW : 0 < W) (heta : 0 < eta) (hnn : ∀ w < W, 0 ≤ nzw z w) :
    ∑ w ∈ Finset.range W, normalizeRows nzw W eta z w = 1 := by
  unfold normalizeRows
  rw [← Finset.sum_div]
  apply div_self
  have hpos : 0 < ∑ w' ∈ Finset.range W, ((nzw z w' : Rat) + eta) := by
    apply Finset.sum_pos
    · intro w hw
      have h1 := hnn w (Finset.mem_range.mp hw)
      have h2 : (0 : ℚ) ≤ (nzw z w : ℚ) := by exact_mod_cast h1
      linarith
    · exact Finset.nonempty_range_iff.mpr (by omega)
  exact ne_of_gt hpos

/-- Counterexample to claim C3 as stated: blending (lamda = 1/2) the
uniform components row from all-zero counts with the coherence-adjusted
copy of the same row (relevances 1/10..5/10 on the five selected words)
yields a row whose sum is 4939/5760, not 1: the redistribution step does
not conserve probability mass, and the blend is never renormalized. -/
theorem claim_C3_counterexample :
    ∑ w ∈ Finset.range 12, fitTopicWord (fun _ _ => 0) 12 1 (1/2)
      (updRowM (normalizeRows (fun _ _ => 0) 12 1) 0
        (adjustTopicRow [0, 1, 2, 3, 4, 5, 6, 7, 8, 9, 10, 11]
          [1/10, 2/10, 3/10, 4/10, 5/10, 1, 1, 1, 1, 1, 1, 1] [0, 1, 2, 3, 4]
          (normalizeRows (fun _ _ => 0) 12 1 0))) 0 w ≠ 1 := by
  have hrange : List.range 12 = [0, 1, 2, 3, 4, 5, 6, 7, 8, 9, 10, 11] := rfl
  norm_num [fitTopicWord, normalizeRows, updRowM, adjustTopicRow, adjustSelected,
    adjustWordStep, updQ, pAllocateSum, redistributeStep, hrange,
    Finset.sum_range_succ, List.foldl_cons, List.foldl_nil, List.filter]

/-- Claim C3 amended: the nzw-derived topic_word rows do sum to 1, so
each row of the public blended output sums to
lamda + (1 - lamda) * (sum of the corresponding adjusted row); it equals
1 only when the adjusted row still sums to 1 (e.g. lamda = 1 or the row
was never adjusted), which the adjustment does not preserve. -/
theorem claim_C3_amended (nzw : Nat → Nat → Int) (W : Nat) (eta lamda : ℚ)
    (twNew : Nat → Nat → ℚ) (z : Nat)
    (hW : 0 < W) (heta : 0 < eta) (hnn : ∀ w < W, 0 ≤ nzw z w) :
    ∑ w ∈ Finset.range W, fitTopicWord nzw W eta lamda twNew z w
      = lamda + (1 - lamda) * ∑ w ∈ Finset.range W, twNew z w := by
  unfold fitTopicWord
  rw [Finset.sum_add_distrib, ← Finset.mul_sum, ← Finset.mul_sum,
    normalizeRows_rowSum nzw W eta z hW heta hnn, mul_one]

/-- Witness for the amended C3 at zero counts, W = 2, eta = 1,
lamda = 1/2 and a constant adjusted matrix. -/
theorem claim_C3_amended_witness :
    ∑ w ∈ Finset.range 2, fitTopicWord (fun _ _ => 0) 2 1 (1/2) (fun _ _ => 3) 0 w
      = 1/2 + (1 - 1/2) * ∑ w ∈ Finset.range 2, (fun (_ _ : Nat) => (3 : ℚ)) 0 w := by
  exact claim_C3_amended (fun _ _ => 0) 2 1 (1/2) (fun _ _ => 3) 0 (by omega)
    (by norm_num) (fun w _ => le_refl 0)

/-! ## Aliasing of components_ and topic_word_new (C9) -/

/-- Counterexample to claim C9 as stated: after the refresh
(lines 288-291) binds components_ and topic_word_new to the same array,
one adjuster step changes the value read through components_ at the first
selected top word from 1/12 to 1/120 — the adjuster's mutations do change
the components array. -/
theorem claim_C9_counterexample :
    (adjustEpoch (refreshComponents ⟨⟨fun _ _ _ => 0, 0⟩, 0, 0⟩ (fun _ _ => 0) 12 1)
        0 [0, 1, 2, 3, 4, 5, 6, 7, 8, 9, 10, 11]
        [1/10, 2/10, 3/10, 4/10, 5/10, 1, 1, 1, 1, 1, 1, 1] [0, 1, 2, 3, 4]).store.mem
      (refreshComponents ⟨⟨fun _ _ _ => 0, 0⟩, 0, 0⟩ (fun _ _ => 0) 12 1).componentsId 0 0
      = 1/120 ∧
    (refreshComponents ⟨⟨fun _ _ _ => 0, 0⟩, 0, 0⟩ (fun _ _ => 0) 12 1).store.mem
      (refreshComponents ⟨⟨fun _ _ _ => 0, 0⟩, 0, 0⟩ (fun _ _ => 0) 12 1).componentsId 0 0
      = 1/12 ∧
    (1 : ℚ)/120 ≠ (1 : ℚ)/12 := by
  have hrange : List.range 12 = [0, 1, 2, 3, 4, 5, 6, 7, 8, 9, 10, 11] := rfl
  refine ⟨?_, ?_, by norm_num⟩
  · norm_num [adjustEpoch, refreshComponents, storeAlloc, updRowM, normalizeRows,
      adjustTopicRow, adjustSelected, adjustWordStep, updQ, pAllocateSum,
      redistributeStep, hrange, Finset.sum_range_succ, List.foldl_cons, List.foldl_nil,
      List.filter]
  · norm_num [refreshComponents, storeAlloc, normalizeRows, Finset.sum_range_succ]

/-- Claim C9 amended: after each refresh, components_ and topic_word_new
hold the same array id, so the adjuster's in-place write is visible
through components_ (the two are not independent during fitting); only
the final assembly allocates a fresh components array, and the blend at
the end of fit combines that fresh array with the adjusted array in one
place. -/
theorem claim_C9_amended (v : FitRefs) (nzw nzw2 : Nat → Nat → Int) (W : Nat)
    (eta lamda : ℚ) (adjust : Nat) (tm : List Nat) (mr : List ℚ) (mi : List Nat) :
    (refreshComponents v nzw W eta).componentsId
        = (refreshComponents v nzw W eta).topicWordNewId ∧
    (adjustEpoch (refreshComponents v nzw W eta) adjust tm mr mi).store.mem
        (refreshComponents v nzw W eta).componentsId
      = updRowM (normalizeRows nzw W eta) adjust
          (adjustTopicRow tm mr mi (normalizeRows nzw W eta adjust)) ∧
    (finalAssembly (adjustEpoch (refreshComponents v nzw W eta) adjust tm mr mi)
        nzw2 W eta lamda).1.componentsId
      ≠ (finalAssembly (adjustEpoch (refreshComponents v nzw W eta) adjust tm mr mi)
        nzw2 W eta lamda).1.topicWordNewId ∧
    ∀ z w,
      (finalAssembly (adjustEpoch (refreshComponents v nzw W eta) adjust tm mr mi)
          nzw2 W eta lamda).2 z w
        = lamda * normalizeRows nzw2 W eta z w
          + (1 - lamda) * updRowM (normalizeRows nzw W eta) adjust
              (adjustTopicRow tm mr mi (normalizeRows nzw W eta adjust)) z w := by
  refine ⟨rfl, ?_, ?_, ?_⟩
  · simp [adjustEpoch, refreshComponents, storeAlloc]
  · simp [finalAssembly, adjustEpoch, refreshComponents, storeAlloc]
  · intro z w
    simp [finalAssembly, adjustEpoch, refreshComponents, storeAlloc]

/-! ## The iterated pseudo-count inferencer (C7, C10) -/

theorem pzsRaw_eq (phi : Nat → Nat → ℚ) (doc : List Nat) (alpha : ℚ)
    (P : Nat → Nat → ℚ) (i k : Nat) (hi : i < doc.length) :
    pzsRawCode phi doc alpha P i k = pzsRawSpec phi doc alpha P i k := by
  unfold pzsRawCode pzsRawSpec pzsColSum
  congr 1
  rw [Finset.sum_erase_eq_sub (Finset.mem_range.mpr hi)]

theorem pzsStep_eq (phi : Nat → Nat → ℚ) (doc : List Nat) (K : Nat) (alpha : ℚ)
    (P : Nat → Nat → ℚ) :
    pzsStepCode phi doc K alpha P = pzsStepSpec phi doc K alpha P := by
  unfold pzsStepCode pzsStepSpec pzsNormalize
  funext i k
  by_cases h : i < doc.length ∧ k < K
  · rw [if_pos h, if_pos h, pzsRaw_eq phi doc alpha P i k h.1]
    congr 1
    exact Finset.sum_congr rfl (fun k' _ => pzsRaw_eq phi doc alpha P i k' h.1)
  · rw [if_neg h, if_neg h]

/-- Claim C7: the inferencer starts from an all-zero PZS, runs at most
max_iter + 1 update-and-normalize iterations with early stopping below
tol, and returns normalized column sums; its update, written in the code
as topic_word * (column sum - own entry + alpha), agrees everywhere with
the spec's "sum of PZS over the other token positions plus alpha", so the
code form and the spec form of the whole procedure coincide. -/
theorem claim_C7_transform_single (phi : Nat → Nat → ℚ) (doc : List Nat) (K : Nat)
    (alpha tol : ℚ) (maxIter : Nat) (k : Nat) :
    transformSingle phi doc K alpha tol maxIter k
      = transformSingleSpec phi doc K alpha tol maxIter k := by
  unfold transformSingle transformSingleSpec
  have hstep : pzsStepCode phi doc K alpha = pzsStepSpec phi doc K alpha :=
    funext (fun P => pzsStep_eq phi doc K alpha P)
  rw [hstep]

theorem pzsStepCode_good (phi : Nat → Nat → ℚ) (doc : List Nat) (K : Nat) (alpha : ℚ)
    (P : Nat → Nat → ℚ) (hphi : ∀ k w, k < K → 0 < phi k w) (halpha : 0 < alpha)
    (hK : 0 < K) (hP : ∀ i k, 0 ≤ P i k) :
    (∀ i k, 0 ≤ pzsStepCode phi doc K alpha P i k) ∧
      ∀ i < doc.length, ∑ k ∈ Finset.range K, pzsStepCode phi doc K alpha P i k = 1 := by
  have hraw : ∀ i k, i < doc.length → k < K → 0 < pzsRawCode phi doc alpha P i k := by
    intro i k hi hk
    unfold pzsRawCode
    apply mul_pos (hphi k _ hk)
    have hle : P i k ≤ pzsColSum P doc.length k := by
      unfold pzsColSum
      exact Finset.single_le_sum (fun j _ => hP j k) (Finset.mem_range.mpr hi)
    linarith
  have hden : ∀ i, i < doc.length →
      0 < ∑ k' ∈ Finset.range K, pzsRawCode phi doc alpha P i k' := by
    intro i hi
    apply Finset.sum_pos
    · intro k' hk'
      exact hraw i k' hi (Finset.mem_range.mp hk')
    · exact Finset.nonempty_range_iff.mpr (by omega)
  constructor
  · intro i k
    unfold pzsStepCode pzsNormalize
    split
    next h =>
      exact div_nonneg (le_of_lt (hraw i k h.1 h.2)) (le_of_lt (hden i h.1))
    next => exact le_refl 0
  · intro i hi
    unfold pzsStepCode pzsNormalize
    have hcong : ∀ k ∈ Finset.range K,
        (if i < doc.length ∧ k < K
          then pzsRawCode phi doc alpha P i k / ∑ k' ∈ Finset.range K, pzsRawCode phi doc alpha P i k'
          else 0)
        = pzsRawCode phi doc alpha P i k / ∑ k' ∈ Finset.range K, pzsRawCode phi doc alpha P i k' := by
      intro k hk
      rw [if_pos ⟨hi, Finset.mem_range.mp hk⟩]
    rw [Finset.sum_congr rfl hcong, ← Finset.sum_div]
    exact div_self (ne_of_gt (hden i hi))

theorem pzsLoop_zero (step : (Nat → Nat → ℚ) → Nat → Nat → ℚ) (n K : Nat) (tol : ℚ)
    (P : Nat → Nat → ℚ) : pzsLoop step n K tol 0 P = P := rfl

theorem pzsLoop_succ (step : (Nat → Nat → ℚ) → Nat → Nat → ℚ) (n K : Nat) (tol : ℚ)
    (f : Nat) (P : Nat → Nat → ℚ) :
    pzsLoop step n K tol (f + 1) P
      = if pzsDelta n K (step P) P < tol then step P
        else pzsLoop step n K tol f (step P) := rfl

theorem pzsLoop_result_good (phi : Nat → Nat → ℚ) (doc : List Nat) (K : Nat)
    (alpha tol : ℚ) (hphi : ∀ k w, k < K → 0 < phi k w) (halpha : 0 < alpha) (hK : 0 < K) :
    ∀ (f : Nat) (P : Nat → Nat → ℚ), (∀ i k, 0 ≤ P i k) →
      (∀ i k, 0 ≤ pzsLoop (pzsStepCode phi doc K alpha) doc.length K tol (f + 1) P i k) ∧
        ∀ i < doc.length, ∑ k ∈ Finset.range K,
          pzsLoop (pzsStepCode phi doc K alpha) doc.length K tol (f + 1) P i k = 1 := by
  intro f
  induction f with
  | zero =>
      intro P hP
      have hstep := pzsStepCode_good phi doc K alpha P hphi halpha hK hP
      rw [pzsLoop_succ, pzsLoop_zero, ite_self]
      exact hstep
  | succ f ih =>
      intro P hP
      have hstep := pzsStepCode_good phi doc K alpha P hphi halpha hK hP
      rw [pzsLoop_succ]
      by_cases hbr : pzsDelta doc.length K (pzsStepCode phi doc K alpha P) P < tol
      · rw [if_pos hbr]
        exact hstep
      · rw [if_neg hbr]
        exact ih (pzsStepCode phi doc K alpha P) hstep.1

theorem transformSingle_stochastic (phi : Nat → Nat → ℚ) (doc : List Nat) (K : Nat)
    (alpha tol : ℚ) (maxIter : Nat) (hphi : ∀ k w, k < K → 0 < phi k w)
    (halpha : 0 < alpha) (hK : 0 < K) (hdoc : 0 < doc.length) :
    (∀ k, 0 ≤ transformSingle phi doc K alpha tol maxIter k) ∧
      ∑ k ∈ Finset.range K, transformSingle phi doc K alpha tol maxIter k = 1 := by
  obtain ⟨hnn, hrows⟩ := pzsLoop_result_good phi doc K alpha tol hphi halpha hK maxIter
    (fun _ _ => 0) (fun _ _ => le_refl 0)
  set P := pzsLoop (pzsStepCode phi doc K alpha) doc.length K tol (maxIter + 1)
    (fun _ _ => 0) with hPdef
  have htot : ∑ k' ∈ Finset.range K, pzsColSum P doc.length k' = (doc.length : ℚ) := by
    unfold pzsColSum
    rw [Finset.sum_comm]
    rw [Finset.sum_congr rfl (fun j hj => hrows j (Finset.mem_range.mp hj))]
    simp
  have hcol : ∀ k, 0 ≤ pzsColSum P doc.length k := by
    intro k
    unfold pzsColSum
    exact Finset.sum_nonneg (fun j _ => hnn j k)
  have hn : (0 : ℚ) < (doc.length : ℚ) := by exact_mod_cast hdoc
  constructor
  · intro k
    show 0 ≤ pzsColSum P doc.length k / ∑ k' ∈ Finset.range K, pzsColSum P doc.length k'
    rw [htot]
    exact div_nonneg (hcol k) (le_of_lt hn)
  · show ∑ k ∈ Finset.range K,
        pzsColSum P doc.length k / ∑ k' ∈ Finset.range K, pzsColSum P doc.length k' = 1
    rw [htot, ← Finset.sum_div, htot]
    exact div_self (ne_of_gt hn)

/-- Counterexample to claim C10 as stated: transform writes only the rows
of documents that occur in the token stream (np.unique(DS)); for the
all-zero one-row matrix the output row keeps whatever the np.empty buffer
held — here the value 2 in each of the 2 topic slots, summing to 4, so
the returned matrix is not row-stochastic. -/
theorem claim_C10_counterexample :
    ∑ k ∈ Finset.range 2,
      transform (fun _ _ => 2) (fun _ _ => 1/2) [[0]] 2 (1/10) (1/10) 20 0 k ≠ 1 := by
  norm_num [transform, docWords, matrixToLists, matrixRowsFrom, expandRowFrom,
    Finset.sum_range_succ]

/-- Claim C10 amended: for a fitted model with strictly positive
topic_word entries, positive alpha and at least one topic, every row of
transform belonging to a document with at least one token is
row-stochastic (non-negative entries summing to 1); rows of token-free
documents are returned as the uninitialized buffer contents. -/
theorem claim_C10_amended (doctInit phi : Nat → Nat → ℚ) (X : List (List Nat))
    (K : Nat) (alpha tol : ℚ) (maxIter d : Nat)
    (hphi : ∀ k w, k < K → 0 < phi k w) (halpha : 0 < alpha) (hK : 0 < K)
    (hd : (docWords X d).length ≠ 0) :
    (∀ k, 0 ≤ transform doctInit phi X K alpha tol maxIter d k) ∧
      ∑ k ∈ Finset.range K, transform doctInit phi X K alpha tol maxIter d k = 1 := by
  have ht : transform doctInit phi X K alpha tol maxIter d
      = transformSingle phi (docWords X d) K alpha tol maxIter := by
    unfold transform
    rw [if_neg hd]
  rw [ht]
  exact transformSingle_stochastic phi (docWords X d) K alpha tol maxIter hphi halpha hK
    (by omega)

/-- Witness for the amended C10: a single one-token document. -/
theorem claim_C10_amended_witness :
    ∑ k ∈ Finset.range 1, transform (fun _ _ => 2) (fun _ _ => 1) [[1]] 1 1 0 0 0 k = 1 :=
  (claim_C10_amended (fun _ _ => 2) (fun _ _ => 1) [[1]] 1 1 0 0 0
    (fun _ _ _ => one_pos) one_pos Nat.one_pos (by decide)).2

/-! ## Perplexity of the uniform model (C8) -/

/-- Claim C8: when every topic_word entry is 1/V and every doc_topic row
sums to 1, the blended word probability of every counted entry is exactly
1/V, so perplexity evaluates to exp(log V) = V. -/
theorem claim_C8_uniform_perplexity (X : Nat → Nat → Nat) (theta phi : Nat → Nat → ℚ)
    (D V K : Nat)
    (hphi : ∀ k w, k < K → w < V → phi k w = 1 / V)
    (htheta : ∀ d < D, ∑ k ∈ Finset.range K, theta d k = 1)
    (hN : 0 < totalCountM X D V) :
    perplexity X theta phi D V K = (V : ℝ) := by
  have hV : 0 < V := by
    by_contra h
    have hV0 : V = 0 := by omega
    rw [hV0] at hN
    simp [totalCountM] at hN
  have hprob : ∀ d < D, ∀ w < V, probWord theta phi K d w = 1 / V := by
    intro d hd w hw
    unfold probWord
    rw [Finset.sum_congr rfl (fun k hk => by
      rw [hphi k w (Finset.mem_range.mp hk) hw])]
    rw [← Finset.sum_mul, htheta d hd, one_mul]
  have hlogc : Real.log (((1 : ℚ) / V : ℚ) : ℝ) = -Real.log (V : ℝ) := by
    push_cast
    rw [one_div, Real.log_inv]
  have hsum : (∑ d ∈ Finset.range D, ∑ w ∈ Finset.range V,
      if X d w ≠ 0 then (X d w : ℝ) * Real.log ((probWord theta phi K d w : ℚ) : ℝ) else 0)
      = (totalCountM X D V : ℝ) * (-Real.log (V : ℝ)) := by
    have hterm : ∀ d ∈ Finset.range D, ∀ w ∈ Finset.range V,
        (if X d w ≠ 0 then (X d w : ℝ) * Real.log ((probWord theta phi K d w : ℚ) : ℝ) else 0)
          = (X d w : ℝ) * (-Real.log (V : ℝ)) := by
      intro d hd w hw
      by_cases hx : X d w = 0
      · rw [if_neg (by simpa using hx), hx]
        simp
      · rw [if_pos hx, hprob d (Finset.mem_range.mp hd) w (Finset.mem_range.mp hw), hlogc]
    rw [Finset.sum_congr rfl (fun d hd =>
      Finset.sum_congr rfl (fun w hw => hterm d hd w hw))]
    unfold totalCountM
    push_cast
    rw [Finset.sum_mul]
    exact Finset.sum_congr rfl (fun d _ => (Finset.sum_mul _ _ _).symm)
  have hNne : ((totalCountM X D V : ℕ) : ℝ) ≠ 0 := by
    have hpos : (0 : ℝ) < ((totalCountM X D V : ℕ) : ℝ) := by exact_mod_cast hN
    linarith
  unfold perplexity
  rw [hsum]
  have harg : -((totalCountM X D V : ℝ) * (-Real.log (V : ℝ))) / (totalCountM X D V : ℝ)
      = Real.log (V : ℝ) := by
    field_simp
  rw [harg]
  exact Real.exp_log (by exact_mod_cast hV)

/-- Witness for C8: one document, two words each counted once, one topic,
uniform topic_word 1/2: perplexity is exactly the vocabulary size 2. -/
theorem claim_C8_witness :
    perplexity (fun _ _ => 1) (fun _ _ => 1) (fun _ _ => (1 : ℚ)/2) 1 2 1 = ((2 : Nat) : ℝ) :=
  claim_C8_uniform_perplexity (fun _ _ => 1) (fun _ _ => 1) (fun _ _ => (1 : ℚ)/2) 1 2 1
    (fun k w _ _ => by norm_num) (fun d _ => by simp)
    (by norm_num [totalCountM, Finset.sum_range_succ])

/-! ## Coherence score accumulation and its failure condition (C6) -/

theorem except_bind_ok {α β : Type} (b : α) (k : α → Except LDAError β) :
    (Except.ok b >>= k) = k b := rfl

theorem except_bind_err {α β : Type} (e : LDAError) (k : α → Except LDAError β) :
    ((Except.error e : Except LDAError α) >>= k) = Except.error e := rfl

theorem mapM_ok_of_forall {α β : Type} (f : α → Except LDAError β) (g : α → β) :
    ∀ (l : List α), (∀ a ∈ l, f a = .ok (g a)) → l.mapM f = .ok (l.map g) := by
  intro l
  induction l with
  | nil => intro _; rfl
  | cons a l ih =>
      intro h
      have h1 : f a = .ok (g a) := h a (List.mem_cons_self a l)
      have h2 : l.mapM f = .ok (l.map g) := ih (fun x hx => h x (List.mem_cons_of_mem a hx))
      rw [List.mapM_cons, h1, except_bind_ok, h2, except_bind_ok]
      rfl

theorem mapM_isErr_iff {α β : Type} (f : α → Except LDAError β) :
    ∀ (l : List α), isErr (l.mapM f) = true ↔ ∃ a ∈ l, isErr (f a) = true := by
  intro l
  induction l with
  | nil =>
      rw [List.mapM_nil]
      simp [isErr, pure, Except.pure]
  | cons a l ih =>
      rw [List.mapM_cons]
      cases hfa : f a with
      | error e =>
          rw [except_bind_err]
          simp only [isErr, true_iff]
          exact ⟨a, List.mem_cons_self a l, by rw [hfa]⟩
      | ok b =>
          rw [except_bind_ok]
          cases hml : l.mapM f with
          | error e =>
              rw [except_bind_err]
              simp only [isErr, true_iff]
              rw [hml] at ih
              obtain ⟨x, hx, hex⟩ := ih.mp rfl
              exact ⟨x, List.mem_cons_of_mem a hx, hex⟩
          | ok bs =>
              rw [except_bind_ok]
              have hlhs : isErr (pure (b :: bs) : Except LDAError (List β)) = false := rfl
              rw [hlhs]
              constructor
              · intro h
                simp at h
              · rintro ⟨x, hx, hex⟩
                rcases List.mem_cons.mp hx with rfl | hx'
                · rw [hfa] at hex
                  simp [isErr] at hex
                · have h2 := ih.mpr ⟨x, hx', hex⟩
                  rw [hml] at h2
                  simp [isErr] at h2

theorem ckPairs_length (i : Nat) : (ckPairs i).length = 66 := rfl

theorem ckPairs_mem (i : Nat) (p : Nat × Nat) (hp : p ∈ ckPairs i) :
    i * 12 ≤ p.2 ∧ p.2 < p.1 ∧ p.1 < i * 12 + 12 := by
  unfold ckPairs at hp
  simp only [List.mem_flatten, List.mem_map, List.mem_range] at hp
  obtain ⟨L, ⟨a, ha, rfl⟩, hpL⟩ := hp
  simp only [List.mem_map, List.mem_range] at hpL
  obtain ⟨b, hb, rfl⟩ := hpL
  refine ⟨by omega, by omega, by omega⟩

theorem topCount_ne_zero_iff (tokens : List (Nat × Nat × Nat)) (wordId : Nat → List Nat)
    (i off d : Nat) (hoff : off < (wordId i).length) (hnd : (wordId i).Nodup) :
    topCount tokens wordId (i * 12 + off) d i ≠ 0 ↔
      ((wordId i).getD off 0, d, i) ∈ tokens := by
  unfold topCount
  rw [Ne, List.countP_eq_zero]
  constructor
  · intro h
    push_neg at h
    obtain ⟨t, ht, hp⟩ := h
    rw [decide_eq_true_eq] at hp
    obtain ⟨hmem, hslot, hd, hz⟩ := hp
    rw [hz] at hmem hslot
    have hidx : (wordId i).indexOf t.1 = off := by omega
    have hlt : (wordId i).indexOf t.1 < (wordId i).length :=
      List.indexOf_lt_length.mpr hmem
    subst hidx
    have heq : ((wordId i).getD ((wordId i).indexOf t.1) 0, d, i) = t := by
      rw [List.getD_eq_getElem _ _ hoff, List.getElem_indexOf hlt, ← hd, ← hz]
    rw [heq]
    exact ht
  · intro hmem hall
    have hp := hall _ hmem
    apply hp
    rw [decide_eq_true_eq]
    dsimp only
    refine ⟨?_, ?_, rfl, rfl⟩
    · rw [List.getD_eq_getElem _ _ hoff]
      exact List.getElem_mem hoff
    · rw [List.getD_eq_getElem _ _ hoff, List.indexOf_getElem hnd off hoff]
      omega

theorem selfFrequency_eq (tokens : List (Nat × Nat × Nat)) (wordId : Nat → List Nat)
    (D i b : Nat) (hb : b < (wordId i).length) (hnd : (wordId i).Nodup) :
    selfFrequency tokens wordId D (i * 12 + b) i
      = ((Finset.range D).filter (fun d => ((wordId i).getD b 0, d, i) ∈ tokens)).card := by
  unfold selfFrequency
  congr 1
  apply Finset.filter_congr
  intro d _
  exact topCount_ne_zero_iff tokens wordId i b d hb hnd

theorem conFrequency_eq (tokens : List (Nat × Nat × Nat)) (wordId : Nat → List Nat)
    (D i a b : Nat) (ha : a < (wordId i).length) (hb : b < (wordId i).length)
    (hnd : (wordId i).Nodup) :
    conFrequency tokens wordId D (i * 12 + a) (i * 12 + b) i
      = ((Finset.range D).filter (fun d => ((wordId i).getD a 0, d, i) ∈ tokens ∧
          ((wordId i).getD b 0, d, i) ∈ tokens)).card := by
  unfold conFrequency
  congr 1
  apply Finset.filter_congr
  intro d _
  exact and_congr (topCount_ne_zero_iff tokens wordId i a d ha hnd)
    (topCount_ne_zero_iff tokens wordId i b d hb hnd)

/-- Claim C6: ck[i] is accumulated over exactly the 66 ordered slot pairs
(m, l) with l < m of topic i's 12-slot block; each term is the ratio
(con_frequency + 1) / self_frequency where, through the token-count
characterization, con_frequency counts the documents in which both pair
words occur assigned to topic i and self_frequency counts those in which
the l-word (the first, higher-ranked word) so occurs; the computation
raises ZeroDivisionError exactly when some pair's self_frequency is 0,
and otherwise ck[i] is the sum of the logs of these ratios. -/
theorem claim_C6_ck_terms (tokens : List (Nat × Nat × Nat)) (wordId : Nat → List Nat)
    (D i : Nat) (hnd : (wordId i).Nodup) :
    ((ckPairs i).length = 66 ∧
      ∀ p ∈ ckPairs i, i * 12 ≤ p.2 ∧ p.2 < p.1 ∧ p.1 < i * 12 + 12) ∧
    (isErr (ckTopicTerms tokens wordId D i) = true ↔
      ∃ p ∈ ckPairs i, selfFrequency tokens wordId D p.2 i = 0) ∧
    ((∀ p ∈ ckPairs i, selfFrequency tokens wordId D p.2 i ≠ 0) →
      ckTopicTerms tokens wordId D i = .ok ((ckPairs i).map (fun p =>
        ((conFrequency tokens wordId D p.1 p.2 i : ℚ) + 1)
          / (selfFrequency tokens wordId D p.2 i : ℚ)))) ∧
    (∀ rs, ckTopicTerms tokens wordId D i = .ok rs →
      (rs.map (fun q => Real.log ((q : ℚ) : ℝ))).sum
        = ((ckPairs i).map (fun p => Real.log
            ((((conFrequency tokens wordId D p.1 p.2 i : ℚ) + 1)
              / (selfFrequency tokens wordId D p.2 i : ℚ) : ℚ) : ℝ))).sum) ∧
    (∀ b d, b < (wordId i).length →
      (topCount tokens wordId (i * 12 + b) d i ≠ 0 ↔
        ((wordId i).getD b 0, d, i) ∈ tokens)) ∧
    (∀ a b, a < (wordId i).length → b < (wordId i).length →
      conFrequency tokens wordId D (i * 12 + a) (i * 12 + b) i
        = ((Finset.range D).filter (fun d => ((wordId i).getD a 0, d, i) ∈ tokens ∧
            ((wordId i).getD b 0, d, i) ∈ tokens)).card ∧
      selfFrequency tokens wordId D (i * 12 + b) i
        = ((Finset.range D).filter (fun d =>
            ((wordId i).getD b 0, d, i) ∈ tokens)).card) := by
  have hok : ∀ (hno : ∀ p ∈ ckPairs i, selfFrequency tokens wordId D p.2 i ≠ 0),
      ckTopicTerms tokens wordId D i = .ok ((ckPairs i).map (fun p =>
        ((conFrequency tokens wordId D p.1 p.2 i : ℚ) + 1)
          / (selfFrequency tokens wordId D p.2 i : ℚ))) := by
    intro hno
    unfold ckTopicTerms
    apply mapM_ok_of_forall
    intro p hp
    rw [if_neg (hno p hp)]
  refine ⟨⟨ckPairs_length i, fun p hp => ckPairs_mem i p hp⟩, ?_, hok, ?_, ?_, ?_⟩
  · unfold ckTopicTerms
    rw [mapM_isErr_iff]
    constructor
    · rintro ⟨p, hp, he⟩
      refine ⟨p, hp, ?_⟩
      by_contra hne
      rw [if_neg hne] at he
      exact absurd he (by simp [isErr])
    · rintro ⟨p, hp, he⟩
      refine ⟨p, hp, ?_⟩
      rw [if_pos he]
      rfl
  · intro rs hrs
    by_cases hno : ∀ p ∈ ckPairs i, selfFrequency tokens wordId D p.2 i ≠ 0
    · have := hok hno
      rw [this] at hrs
      have hrs' : ((ckPairs i).map (fun p =>
          ((conFrequency tokens wordId D p.1 p.2 i : ℚ) + 1)
            / (selfFrequency tokens wordId D p.2 i : ℚ))) = rs := by
        injection hrs
      rw [← hrs', List.map_map]
      rfl
    · exfalso
      push_neg at hno
      obtain ⟨p, hp, hzero⟩ := hno
      have herr : isErr (ckTopicTerms tokens wordId D i) = true := by
        unfold ckTopicTerms
        rw [mapM_isErr_iff]
        refine ⟨p, hp, ?_⟩
        rw [if_pos hzero]
        rfl
      rw [hrs] at herr
      exact absurd herr (by simp [isErr])
  · intro b d hb
    exact topCount_ne_zero_iff tokens wordId i b d hb hnd
  · intro a b ha hb
    exact ⟨conFrequency_eq tokens wordId D i a b ha hb hnd,
      selfFrequency_eq tokens wordId D i b hb hnd⟩

/-- Witness for C6: with an empty token stream every marginal count is 0,
so the ck computation for topic 0 raises the division error; hypotheses
are discharged at the concrete 12-word id list. -/
theorem claim_C6_witness :
    isErr (ckTopicTerms [] (fun _ => [0, 1, 2, 3, 4, 5, 6, 7, 8, 9, 10, 11]) 1 0) = true :=
  (claim_C6_ck_terms [] (fun _ => [0, 1, 2, 3, 4, 5, 6, 7, 8, 9, 10, 11]) 1 0
    (by decide)).2.1.mpr ⟨(1, 0), by decide, by decide⟩

end GuidedLDA
